import Mathlib

/-
Formal model of the tabular writer engine of the gtfswriter repository.

The embedding covers the CsvWriter component (SetHeader, SetOrder,
WriteCsvLine, WriteCsvLineRaw, HeaderUsage, SortByCols, WriteHeader, Flush,
maskLine), the panic/recover error conversion at the per-table boundary,
the zero-row file policy of the table sequencer, and the newline collapsing
applied to free-text cells.

Modelling conventions:
* machine strings are Lean String values; Go string comparison (byte-wise
  lexicographic on UTF-8 bytes) is modelled character-wise on String.data,
  which orders identically because UTF-8 preserves codepoint order;
* the underlying csv.Writer is modelled by an output field accumulating the
  records handed to csv.Writer.Write, in order.  The byte encoding applied
  downstream is a fixed function of that record sequence, so record-sequence
  equality models byte-identical output;
* Go slice-index panics are modelled by Option (none = panic);
* Go sort.Sort guarantees only that the data ends up as a permutation that
  is sorted with respect to Less (adjacent pairs never inverted); it is
  documented as not stable.  SortByCols is therefore modelled as a relation
  admitting every permutation that satisfies this contract.
-/

namespace GtfsWriter

/-- State of a CsvWriter (csvwriter.go).  The headersMap field of the source
is the index map of the headers list and is only consulted for membership
tests in SetOrder, so it is represented by lookups on headers directly.  The
Go map order (column name to output position) is represented as an
association list with unique keys; headerUsageCount is unused by the
source logic and omitted.  The output field models the records written to
the underlying csv.Writer. -/
structure CsvWriter where
  headers : List String
  headerUsage : List Bool
  lines : List (List String)
  order : List (String × Nat)
  output : List (List String)
  deriving DecidableEq

/-- Model of NewCsvWriter: all components start empty. -/
def NewCsvWriter : CsvWriter :=
  { headers := [], headerUsage := [], lines := [], order := [], output := [] }

/-- Inner loop of SetHeader for a single required name: for every position i
with headers i equal to req, set usage i to true.  The loop walks the
header list, so the recursion is aligned position by position; the source
always calls it with usage of the same length as the headers. -/
def markReq : List String → List Bool → String → List Bool
  | [], us, _ => us
  | _ :: _, [], _ => []
  | h :: hs, u :: us, req => (if h = req then true else u) :: markReq hs us req

/-- Model of CsvWriter.SetHeader: store the headers, reset the usage vector
to all-false of the same length, then run the double loop marking every
position whose header name occurs in the required list. -/
def CsvWriter.SetHeader (p : CsvWriter) (val : List String) (required : List String) : CsvWriter :=
  { p with
    headers := val,
    headerUsage := required.foldl (fun us req => markReq val us req) (List.replicate val.length false) }

/-- Go map assignment m k = v on an association list with unique keys:
drop any existing binding of k and add the new one. -/
def mapInsert (m : List (String × Nat)) (k : String) (v : Nat) : List (String × Nat) :=
  m.filter (fun q => q.1 ≠ k) ++ [(k, v)]

/-- Model of CsvWriter.SetOrder: walk the requested order; every name that
is a member of the schema receives the next output position a, names not in
the schema are skipped without consuming a position. -/
def CsvWriter.SetOrder (p : CsvWriter) (order : List String) : CsvWriter :=
  { p with
    order := (order.foldl
      (fun acc name =>
        if p.headers.contains name then (mapInsert acc.1 name acc.2, acc.2 + 1) else acc)
      (p.order, 0)).1 }

/-- Core of CsvWriter.HeaderUsage: for every index i of the row, if the cell
is non-empty set usage i to true.  The usage vector is only indexed under
the len(v) > 0 guard, so a cell beyond the usage vector indexes out of
bounds (the none result models that Go panic) exactly when it is non-empty;
empty excess cells are skipped without any access. -/
def headerUsageUpd : List Bool → List String → Option (List Bool)
  | us, [] => some us
  | [], v :: vs => if v = "" then headerUsageUpd [] vs else none
  | u :: us, v :: vs => (headerUsageUpd us vs).map (fun r => (if v = "" then u else true) :: r)

/-- Model of CsvWriter.HeaderUsage. -/
def CsvWriter.HeaderUsage (p : CsvWriter) (val : List String) : Option CsvWriter :=
  (headerUsageUpd p.headerUsage val).map (fun u => { p with headerUsage := u })

/-- Model of CsvWriter.WriteCsvLine: append the row to the line cache, then
update the usage vector via HeaderUsage. -/
def CsvWriter.WriteCsvLine (p : CsvWriter) (val : List String) : Option CsvWriter :=
  CsvWriter.HeaderUsage { p with lines := p.lines ++ [val] } val

/-- One step of the order branch of maskLine, processing position i (= p.1)
with usage flag h (= p.2): a name with an assigned output position writes the
cell there unconditionally; an unnamed position appends its cell only when
used. -/
def maskOrderStep (order : List (String × Nat)) (headers vals : List String)
    (a : List String) (p : Nat × Bool) : List String :=
  match order.lookup (headers.getD p.1 "") with
  | some k => a.set k (vals.getD p.1 "")
  | none => if p.2 then a ++ [vals.getD p.1 ""] else a

/-- Order branch of maskLine: a fresh slice of len(order) empty strings,
then the loop over the usage vector with indices. -/
def maskOrderGo (order : List (String × Nat)) (headers : List String)
    (usage : List Bool) (vals : List String) : List String :=
  usage.enum.foldl (maskOrderStep order headers vals) (List.replicate order.length "")

/-- One step of the no-order branch of maskLine: for an unused position i
(index p.1) delete the element at position i - j of the current slice,
where j (= acc.2) counts deletions so far; Go append of the two subslices
is take ++ drop. -/
def maskDropStep (acc : List String × Nat) (p : Nat × Bool) : List String × Nat :=
  if p.2 then acc
  else (acc.1.take (p.1 - acc.2) ++ acc.1.drop (p.1 - acc.2 + 1), acc.2 + 1)

/-- No-order branch of maskLine: the in-place deletion loop over the usage
vector. -/
def maskDropGo (usage : List Bool) (vals : List String) : List String :=
  (usage.enum.foldl maskDropStep (vals, 0)).1

/-- Model of CsvWriter.maskLine: the order branch fires when the order map
is non-empty, otherwise unused positions are deleted. -/
def CsvWriter.maskLine (p : CsvWriter) (vals : List String) : List String :=
  if 0 < p.order.length then maskOrderGo p.order p.headers p.headerUsage vals
  else maskDropGo p.headerUsage vals

/-- Model of CsvWriter.WriteCsvLineRaw with an accepting stream: mask the
row and write it to the underlying writer. -/
def CsvWriter.WriteCsvLineRaw (p : CsvWriter) (vals : List String) : CsvWriter :=
  { p with output := p.output ++ [p.maskLine vals] }

/-- Model of CsvWriter.WriteHeader: mask a copy of the headers and write
it. -/
def CsvWriter.WriteHeader (p : CsvWriter) : CsvWriter :=
  { p with output := p.output ++ [p.maskLine p.headers] }

/-- Model of CsvWriter.Flush: with an empty line cache the raw headers are
written unmasked; otherwise the masked header is written, every cached line
is written through WriteCsvLineRaw, and the cache is released. -/
def CsvWriter.Flush (p : CsvWriter) : CsvWriter :=
  if p.lines.isEmpty then { p with output := p.output ++ [p.headers] }
  else { (p.lines.foldl CsvWriter.WriteCsvLineRaw p.WriteHeader) with lines := [] }

/-- Buffered emission of a row list: WriteCsvLine for each row in order. -/
def writeRows (p : CsvWriter) (rows : List (List String)) : Option CsvWriter :=
  rows.foldlM CsvWriter.WriteCsvLine p

/-- Single-pass buffered path of a table writer without column reordering:
SetHeader, WriteCsvLine per row, Flush. -/
def runBuffered (headers required : List String) (rows : List (List String)) : Option CsvWriter :=
  (writeRows (NewCsvWriter.SetHeader headers required) rows).map CsvWriter.Flush

/-- Buffered path with a preferred column order supplied via SetOrder before
any row is written, as done by the table writers when KeepColOrder is
set. -/
def runBufferedOrd (headers required ord : List String) (rows : List (List String)) :
    Option CsvWriter :=
  (writeRows ((NewCsvWriter.SetHeader headers required).SetOrder ord) rows).map CsvWriter.Flush

/-- Pass-1 probe row of the streaming writers (writeShapes, writeStopTimes):
the fixed columns carry the projected values and every extension column
(position at or after extStart) is filled with the non-empty dummy value so
that it counts as used. -/
def probeRow (extStart : Nat) (r : List String) : List String :=
  r.enum.map (fun p => if extStart ≤ p.1 then "-" else p.2)

/-- Pass 1 of the streaming path: HeaderUsage on the probe of every row. -/
def usagePass (p : CsvWriter) (extStart : Nat) (rows : List (List String)) : Option CsvWriter :=
  rows.foldlM (fun st r => st.HeaderUsage (probeRow extStart r)) p

/-- Two-pass streaming path: SetHeader, usage discovery over placeholder
probes, WriteHeader, then WriteCsvLineRaw per row. -/
def runStreaming (headers required : List String) (extStart : Nat)
    (rows : List (List String)) : Option CsvWriter :=
  (usagePass (NewCsvWriter.SetHeader headers required) extStart rows).map
    (fun s => rows.foldl CsvWriter.WriteCsvLineRaw s.WriteHeader)

/-- Character-level model of strings.Replace(s, newline, space, -1): with a
one-character pattern, replacing every occurrence is the character map. -/
def collapseNewlinesChars (s : List Char) : List Char :=
  s.map (fun c => if c = '\n' then ' ' else c)

/-- Newline collapsing applied by the entity projectors to free-text cells,
for example strings.Replace(v.Name, newline, space, -1) in writeAgencies and
writeStops. -/
def collapseNewlines (s : String) : String :=
  { data := collapseNewlinesChars s.data }

/-- Number of maximal runs of consecutive newline characters in a character
list (each run is counted at its last element). -/
def newlineRuns : List Char → Nat
  | [] => 0
  | [c] => if c = '\n' then 1 else 0
  | c :: d :: rest => (if c = '\n' ∧ d ≠ '\n' then 1 else 0) + newlineRuns (d :: rest)

/-- Structured error of writeerror.go: file name of the failed table plus
the underlying message. -/
structure writeError where
  filename : String
  msg : String
  deriving DecidableEq

/-- Dynamic value carried by a Go panic, as relevant here: either a plain
string (produced by panic(e.Error()) at every panic site of csvwriter.go)
or a value implementing the error interface. -/
inductive GoPanic where
  | stringVal : String → GoPanic
  | errorVal : String → GoPanic
  deriving DecidableEq

/-- Go type assertion r.(error): it succeeds exactly when the dynamic value
implements the error interface.  A plain string does not implement error,
so the assertion on a string value fails (and, inside the deferred recover
block, that failure itself panics). -/
def typeAssertError : GoPanic → Option String
  | GoPanic.errorVal m => some m
  | GoPanic.stringVal _ => none

/-- Result of one per-table write call: a normal return carrying the err
result value, or a panic escaping the function. -/
inductive TableOutcome where
  | normal : Option writeError → TableOutcome
  | panicked : GoPanic → TableOutcome
  deriving DecidableEq

/-- Model of the deferred recover block wrapped around every table body,
for example in writeAgencies: if the body panicked, recover yields the
panic value r and the block executes err = writeError(filename,
r.(error).Error()).  When r is a plain string the type assertion r.(error)
fails at run time, which raises a new panic inside the deferred function;
that panic escapes the table writer. -/
def recoverBoundary (filename : String) (body : Except GoPanic Unit) : TableOutcome :=
  match body with
  | Except.ok _ => TableOutcome.normal none
  | Except.error r =>
    match typeAssertError r with
    | some m => TableOutcome.normal (some { filename := filename, msg := m })
    | none =>
      TableOutcome.panicked
        (GoPanic.errorVal "interface conversion: the recovered value is a string, not an error")

/-- Model of the write-and-check step of WriteCsvLineRaw, WriteHeader and
Flush: e := p.writer.Write(val); if e is non-nil the code panics with
e.Error(), i.e. with a plain string. -/
def writeCsvLineRawPanic (streamResult : Except String Unit) : Except GoPanic Unit :=
  match streamResult with
  | Except.ok _ => Except.ok ()
  | Except.error msg => Except.error (GoPanic.stringVal msg)

/-- Directory destination of the sequencer: the set of files present, as an
association from file name to the record sequence stored in it.  File names
are unique on a real file system, so deletion removes every binding of the
name. -/
def DirFS : Type := List (String × List (List String))

/-- Content of a file, if present. -/
def fsLookup (fs : DirFS) (name : String) : Option (List (List String)) :=
  (List.find? (fun q => q.1 == name) fs).map (fun q => q.2)

/-- Model of delExistingFile on a directory destination: remove the file if
it exists. -/
def fsRemove (fs : DirFS) (name : String) : DirFS :=
  List.filter (fun q => q.1 ≠ name) fs

/-- Model of getFileForWriting on a directory destination: os.Create
truncates an existing file of that name and starts fresh content. -/
def fsCreate (fs : DirFS) (name : String) (content : List (List String)) : DirFS :=
  (name, content) :: fsRemove fs name

/-- Sequencer pattern of an optional table (writeFeedInfos, writeShapes,
writeTransfers, ...): with zero qualifying entities the stale file is
deleted and nothing is written; otherwise the table is produced through the
buffered writer path. -/
def writeOptionalTable (fs : DirFS) (name : String) (headers required : List String)
    (rows : List (List String)) : Option DirFS :=
  if rows.isEmpty then some (fsRemove fs name)
  else (runBuffered headers required rows).map (fun s => fsCreate fs name s.output)

/-- Sequencer pattern of an always-written table (writeAgencies, writeStops,
...): the file is created unconditionally and filled through the buffered
writer path, yielding a header-only file when there are zero entities. -/
def writeRequiredTable (fs : DirFS) (name : String) (headers required : List String)
    (rows : List (List String)) : Option DirFS :=
  (runBuffered headers required rows).map (fun s => fsCreate fs name s.output)

/-- Operations available on a CsvWriter after SetHeader, over the lifetime
of one table write.  SortByCols replaces the line cache with a permutation
chosen by the sort; for the usage invariant the new cache content is
irrelevant, so the operation carries the replacement cache as a parameter,
over-approximating every possible sort result. -/
inductive WOp where
  | setOrderOp : List String → WOp
  | writeLineOp : List String → WOp
  | headerUsageOp : List String → WOp
  | writeLineRawOp : List String → WOp
  | writeHeaderOp : WOp
  | sortOp : List (List String) → WOp
  | flushOp : WOp

/-- Semantics of one operation. -/
def applyOp (p : CsvWriter) : WOp → Option CsvWriter
  | WOp.setOrderOp ord => some (p.SetOrder ord)
  | WOp.writeLineOp row => p.WriteCsvLine row
  | WOp.headerUsageOp row => p.HeaderUsage row
  | WOp.writeLineRawOp row => some (p.WriteCsvLineRaw row)
  | WOp.writeHeaderOp => some p.WriteHeader
  | WOp.sortOp newLines => some { p with lines := newLines }
  | WOp.flushOp => some p.Flush

/-- Semantics of an operation sequence. -/
def applyOps (p : CsvWriter) (ops : List WOp) : Option CsvWriter :=
  ops.foldlM applyOp p

/-- Effect of the in-place deletion loop of maskLine, stated structurally:
values at used positions are kept in order, values at unused positions are
dropped, values beyond the usage vector are untouched. -/
def filterByUsage : List Bool → List String → List String
  | [], vs => vs
  | _ :: _, [] => []
  | u :: us, v :: vs => if u then v :: filterByUsage us vs else filterByUsage us vs

/-- Used-but-unnamed part of the order branch of maskLine: positions whose
name carries no assigned output position contribute their cell, in original
relative order, only when their usage flag is true. -/
def unnamedUsed (order : List (String × Nat)) :
    List String → List Bool → List String → List String
  | h :: hs, u :: us, v :: vs =>
    (match order.lookup h with
    | some _ => unnamedUsed order hs us vs
    | none =>
      if u then v :: unnamedUsed order hs us vs else unnamedUsed order hs us vs)
  | _, _, _ => []

/-- Writes into the fixed slots of the order branch: every position whose
name has an assigned output position stores its cell there, regardless of
the usage flag. -/
def setsOnly (order : List (String × Nat)) :
    List String → List String → List String → List String
  | h :: hs, v :: vs, b =>
    (match order.lookup h with
    | some k => setsOnly order hs vs (b.set k v)
    | none => setsOnly order hs vs b)
  | _, _, b => b

/-- Direct recursion equivalent to the order-branch loop of maskLine when
headers, usage and row have equal length. -/
def maskOrderRec (order : List (String × Nat)) :
    List String → List Bool → List String → List String → List String
  | h :: hs, u :: us, v :: vs, a =>
    (match order.lookup h with
    | some k => maskOrderRec order hs us vs (a.set k v)
    | none => maskOrderRec order hs us vs (if u then a ++ [v] else a))
  | _, _, _, a => a

/-- Go string comparison, character-wise on the decoded codepoints; the
byte-wise comparison of Go coincides with codepoint order because UTF-8
preserves it.  A strict prefix is smaller. -/
def goStrLtChars : List Char → List Char → Bool
  | [], [] => false
  | [], _ :: _ => true
  | _ :: _, [] => false
  | a :: as, b :: bs => if a < b then true else if b < a then false else goStrLtChars as bs

/-- Go string less-than. -/
def goStrLt (a b : String) : Bool := goStrLtChars a.data b.data

/-- Model of SortedLines.Less: walk the first depth cells as long as the
first row has them; a smaller cell decides less, a different cell decides
not-less, a tie continues.  The source indexes the second row
unconditionally and would panic were it shorter than both the depth and the
first row; the theorems below use only equal-length rows, where that branch
is unreachable, and the total model returns false there. -/
def sortedLess : Nat → List String → List String → Bool
  | 0, _, _ => false
  | _ + 1, [], _ => false
  | _ + 1, _ :: _, [] => false
  | d + 1, x :: xs, y :: ys =>
    if goStrLt x y then true
    else if x ≠ y then false
    else sortedLess d xs ys

/-- Adjacent sortedness in the sense of sort.IsSorted: no row is Less than
its predecessor. -/
def sortedRun (depth : Nat) : List (List String) → Bool
  | [] => true
  | [_] => true
  | a :: b :: rest => (!(sortedLess depth b a)) && sortedRun depth (b :: rest)

/-- Contract of Go sort.Sort as invoked by SortByCols: the line cache is
replaced by some permutation of the rows that is sorted with respect to
SortedLines.Less.  The sort.Sort documentation explicitly does not
guarantee stability, so every permutation satisfying this contract is an
admissible result. -/
def SortByColsRel (depth : Nat) (lines result : List (List String)) : Prop :=
  result.Perm lines ∧ sortedRun depth result = true

/-- C9: if Flush is called on a CsvWriter whose buffered line list is empty,
the writer emits the header exactly as declared to SetHeader (every schema
column, with neither the usage mask nor the order remap applied) followed
by no data rows. -/
theorem flush_empty_emits_raw_header (headers required ord : List String) :
    ((NewCsvWriter.SetHeader headers required).SetOrder ord).Flush.output = [headers] := by
  simp [CsvWriter.Flush, CsvWriter.SetOrder, CsvWriter.SetHeader, NewCsvWriter]

/-- C4, behaviour at the failing input: when the underlying stream rejects a
write with message m, the panic(e.Error()) raised inside row emission
carries a plain string, the r.(error) assertion in the deferred recover
block fails, and the table writer panics instead of returning the
structured writeError normally. -/
theorem recover_conversion_panics (m : String) :
    recoverBoundary "agency.txt" (writeCsvLineRawPanic (Except.error m)) =
      TableOutcome.panicked
        (GoPanic.errorVal "interface conversion: the recovered value is a string, not an error") ∧
    ∀ w : Option writeError,
      recoverBoundary "agency.txt" (writeCsvLineRawPanic (Except.error m)) ≠
        TableOutcome.normal w := by
  constructor
  · rfl
  · intro w h
    simp [recoverBoundary, writeCsvLineRawPanic, typeAssertError] at h

/-- C5: for a directory destination, an optional table with zero entities
produces no output file and deletes a pre-existing file of the same name,
while an always-written (required) table with zero entities produces a
header-only file containing exactly the declared header record. -/
theorem zero_row_policy (fs : DirFS) (name : String) (headers required : List String) :
    (writeOptionalTable fs name headers required [] = some (fsRemove fs name) ∧
      fsLookup (fsRemove fs name) name = none) ∧
    (writeRequiredTable fs name headers required [] = some (fsCreate fs name [headers]) ∧
      fsLookup (fsCreate fs name [headers]) name = some [headers]) := by
  refine ⟨⟨rfl, ?_⟩, ⟨?_, ?_⟩⟩
  · simp only [fsLookup, fsRemove, Option.map_eq_none']
    rw [List.find?_eq_none]
    intro q hq
    rw [List.mem_filter] at hq
    simpa using hq.2
  · simp [writeRequiredTable, runBuffered, writeRows, CsvWriter.Flush,
      CsvWriter.SetHeader, NewCsvWriter]
  · simp [fsLookup, fsCreate]

/-- C8, counterexample: the projector maps every newline character to one
space, so the input with a single maximal run of two newlines and no space
is emitted with two spaces, while the claim (one space per maximal run,
other characters untouched) dictates exactly one. -/
theorem newline_run_counterexample :
    collapseNewlines "x\n\ny" = "x  y" ∧
    newlineRuns ("x\n\ny".data) = 1 ∧
    List.count ' ' ("x\n\ny".data) = 0 ∧
    List.count ' ' ((collapseNewlines "x\n\ny").data) = 2 ∧
    (2 : Nat) ≠ 0 + 1 := by
  refine ⟨?_, by decide, by decide, by decide, by decide⟩
  decide

/-- C8, amended: every newline character of a free-text value is replaced by
exactly one space before emission, so the emitted cell contains no newline,
the space count grows by exactly the newline count, and all other characters
and the length are preserved. -/
theorem newlines_replaced_by_spaces (s : String) :
    '\n' ∉ (collapseNewlines s).data ∧
    List.count ' ' ((collapseNewlines s).data) =
      List.count ' ' s.data + List.count '\n' s.data ∧
    (collapseNewlines s).data.length = s.data.length := by
  refine ⟨?_, ?_, by simp [collapseNewlines, collapseNewlinesChars]⟩
  · intro hmem
    simp only [collapseNewlines, collapseNewlinesChars, List.mem_map] at hmem
    obtain ⟨c, -, hc⟩ := hmem
    by_cases h : c = '\n' <;> simp [h] at hc
  · simp only [collapseNewlines, collapseNewlinesChars]
    induction s.data with
    | nil => simp
    | cons c cs ih =>
      by_cases h : c = '\n' <;>
        simp [h, List.count_cons, ih] <;> omega

lemma headerUsageUpd_of_le :
    ∀ (us : List Bool) (vs : List String), vs.length ≤ us.length →
      ∃ u, headerUsageUpd us vs = some u ∧ u.length = us.length ∧
        ∀ i, u.getD i false =
          (us.getD i false || (decide (i < vs.length) && !(vs.getD i "" == ""))) := by
  intro us
  induction us with
  | nil =>
    intro vs hle
    match vs with
    | [] => exact ⟨[], rfl, rfl, by intro i; simp⟩
    | v :: vs => simp at hle
  | cons u us ih =>
    intro vs hle
    match vs with
    | [] =>
      refine ⟨u :: us, rfl, rfl, ?_⟩
      intro i
      simp
    | v :: vs =>
      simp only [List.length_cons, Nat.succ_le_succ_iff] at hle
      obtain ⟨r, hr, hrl, hrp⟩ := ih vs hle
      refine ⟨(if v = "" then u else true) :: r, ?_, by simp [hrl], ?_⟩
      · simp [headerUsageUpd, hr]
      · intro i
        match i with
        | 0 =>
          by_cases hv : v = "" <;> simp [hv]
        | i + 1 =>
          simpa using hrp i

lemma headerUsageUpd_none_iff :
    ∀ (vs : List String) (us : List Bool),
      headerUsageUpd us vs = none ↔ ∃ v ∈ vs.drop us.length, v ≠ "" := by
  intro vs
  induction vs with
  | nil =>
    intro us
    simp [headerUsageUpd]
  | cons v vs ih =>
    intro us
    match us with
    | [] =>
      by_cases hv : v = ""
      · rw [List.length_nil, List.drop_zero]
        simp only [headerUsageUpd, if_pos hv]
        rw [ih []]
        simp [hv]
      · simp [headerUsageUpd, hv]
    | u :: us =>
      simp only [headerUsageUpd, Option.map_eq_none', List.length_cons,
        List.drop_succ_cons]
      exact ih us

lemma markReq_length :
    ∀ (hs : List String) (us : List Bool), us.length = hs.length →
      (markReq hs us req).length = hs.length := by
  intro hs
  induction hs with
  | nil =>
    intro us h
    match us with
    | [] => rfl
  | cons h hs ih =>
    intro us hlen
    match us with
    | u :: us =>
      simp only [List.length_cons] at hlen ⊢
      simp [markReq, ih us (by omega)]

lemma markReq_getD :
    ∀ (hs : List String) (us : List Bool), us.length = hs.length → ∀ i,
      (markReq hs us req).getD i false =
        (us.getD i false || (decide (i < hs.length) && (hs.getD i "" == req))) := by
  intro hs
  induction hs with
  | nil =>
    intro us h i
    match us with
    | [] => simp [markReq]
  | cons h hs ih =>
    intro us hlen i
    match us with
    | u :: us =>
      simp only [List.length_cons] at hlen
      match i with
      | 0 =>
        by_cases hh : h = req <;> simp [markReq, hh]
      | i + 1 =>
        simpa [markReq] using ih us (by omega) i

lemma SetHeader_usage_length (p : CsvWriter) (headers required : List String) :
    (p.SetHeader headers required).headerUsage.length = headers.length := by
  simp only [CsvWriter.SetHeader]
  have : ∀ (reqs : List String) (us : List Bool), us.length = headers.length →
      (reqs.foldl (fun a r => markReq headers a r) us).length = headers.length := by
    intro reqs
    induction reqs with
    | nil => intro us h; simpa using h
    | cons r reqs ih =>
      intro us h
      exact ih (markReq headers us r) (markReq_length headers us h)
  exact this required (List.replicate headers.length false) (by simp)

lemma bool_or_and_merge (u d a b : Bool) :
    ((u || (d && a)) || (d && b)) = (u || (d && (a || b))) := by
  cases u <;> cases d <;> cases a <;> cases b <;> rfl

lemma SetHeader_usage_getD (p : CsvWriter) (headers required : List String) (i : Nat) :
    (p.SetHeader headers required).headerUsage.getD i false =
      (decide (i < headers.length) && required.contains (headers.getD i "")) := by
  simp only [CsvWriter.SetHeader]
  have main : ∀ (reqs : List String) (us : List Bool), us.length = headers.length →
      (reqs.foldl (fun a r => markReq headers a r) us).getD i false =
        (us.getD i false || (decide (i < headers.length) && reqs.contains (headers.getD i ""))) := by
    intro reqs
    induction reqs with
    | nil =>
      intro us h
      simp [List.contains]
    | cons r reqs ih =>
      intro us h
      rw [List.foldl_cons, ih (markReq headers us r) (markReq_length headers us h),
        markReq_getD headers us h i, List.contains_cons, bool_or_and_merge]
  rw [main required (List.replicate headers.length false) (by simp)]
  by_cases hlt : i < headers.length
  · simp [List.getD_eq_getElem?_getD, List.getElem?_replicate, hlt]
  · simp [hlt, List.getD_eq_getElem?_getD, List.getElem?_replicate]

/-- C10, counterexample: a row strictly longer than the one-column schema
whose excess cell is empty completes without any out-of-bounds access (the
len(v) > 0 guard skips the excess cell before the index is used), flipping
exactly the non-empty position, so a row longer than the schema does not by
itself violate the no-out-of-bounds precondition. -/
theorem headerUsage_longer_row_counterexample :
    (["a"] : List String).length < (["x", ""] : List String).length ∧
    headerUsageUpd (NewCsvWriter.SetHeader ["a"] []).headerUsage ["x", ""] = some [true] := by
  exact ⟨by decide, by decide⟩

/-- C10, amended: HeaderUsage (and hence WriteCsvLine) indexes the usage
vector by cell position under the non-empty guard, so for a row no longer
than the schema declared through SetHeader the update succeeds with no
out-of-bounds access and flips to true exactly the positions holding
non-empty cells; a row longer than the schema indexes out of bounds iff
some cell beyond the schema length is non-empty, so a longer row whose
excess cells are all empty completes safely. -/
theorem headerUsage_inbounds_exact (headers required row : List String) :
    (row.length ≤ headers.length →
      ∃ u, headerUsageUpd (NewCsvWriter.SetHeader headers required).headerUsage row = some u ∧
        u.length = headers.length ∧
        ∀ i, u.getD i false =
          ((NewCsvWriter.SetHeader headers required).headerUsage.getD i false ||
            (decide (i < row.length) && !(row.getD i "" == "")))) ∧
    (headerUsageUpd (NewCsvWriter.SetHeader headers required).headerUsage row = none ↔
      ∃ v ∈ row.drop headers.length, v ≠ "") := by
  have hlen := SetHeader_usage_length NewCsvWriter headers required
  constructor
  · intro hle
    obtain ⟨u, hu, hul, hup⟩ :=
      headerUsageUpd_of_le (NewCsvWriter.SetHeader headers required).headerUsage row
        (by omega)
    exact ⟨u, hu, by omega, hup⟩
  · rw [headerUsageUpd_none_iff row (NewCsvWriter.SetHeader headers required).headerUsage,
      hlen]

/-- Witness for the C10 theorem at a concrete schema and row. -/
theorem headerUsage_inbounds_exact_witness :
    ((["", "x"] : List String).length ≤ (["a", "b"] : List String).length) ∧
    (∃ u, headerUsageUpd (NewCsvWriter.SetHeader ["a", "b"] ["a"]).headerUsage ["", "x"] = some u ∧
      u.length = (["a", "b"] : List String).length ∧
      ∀ i, u.getD i false =
        ((NewCsvWriter.SetHeader ["a", "b"] ["a"]).headerUsage.getD i false ||
          (decide (i < (["", "x"] : List String).length) && !((["", "x"] : List String).getD i "" == "")))) := by
  exact ⟨by decide, (headerUsage_inbounds_exact ["a", "b"] ["a"] ["", "x"]).1 (by decide)⟩

lemma headerUsageUpd_mono :
    ∀ (us : List Bool) (vs : List String) (u : List Bool), headerUsageUpd us vs = some u →
      ∀ i, us.getD i false = true → u.getD i false = true := by
  intro us
  induction us with
  | nil =>
    intro vs u h i hi
    rw [List.getD_eq_getElem?_getD, List.getElem?_nil] at hi
    simp at hi
  | cons b us ih =>
    intro vs u h i hi
    match vs with
    | [] =>
      simp only [headerUsageUpd, Option.some.injEq] at h
      simpa [← h] using hi
    | v :: vs =>
      simp only [headerUsageUpd, Option.map_eq_some'] at h
      obtain ⟨r, hr, hu⟩ := h
      subst hu
      match i with
      | 0 =>
        simp only [List.getD_cons_zero] at hi ⊢
        simp [hi]
      | i + 1 =>
        simpa using ih vs r hr i (by simpa using hi)

lemma WriteCsvLineRaw_maskLine (q : CsvWriter) (r v : List String) :
    (q.WriteCsvLineRaw r).maskLine v = q.maskLine v := rfl

lemma foldl_raw_spec :
    ∀ (rows : List (List String)) (q : CsvWriter),
      rows.foldl CsvWriter.WriteCsvLineRaw q =
        { q with output := q.output ++ rows.map q.maskLine } := by
  intro rows
  induction rows with
  | nil => intro q; simp
  | cons r rows ih =>
    intro q
    have hm : rows.map (q.WriteCsvLineRaw r).maskLine = rows.map q.maskLine := by
      apply List.map_congr_left
      intro v _
      exact WriteCsvLineRaw_maskLine q r v
    rw [List.foldl_cons, ih (q.WriteCsvLineRaw r), hm]
    simp [CsvWriter.WriteCsvLineRaw]

lemma applyOp_usage_mono (p q : CsvWriter) (op : WOp) (h : applyOp p op = some q) :
    ∀ i, p.headerUsage.getD i false = true → q.headerUsage.getD i false = true := by
  intro i hi
  cases op with
  | setOrderOp ord =>
    simp only [applyOp, Option.some.injEq] at h
    simpa [← h, CsvWriter.SetOrder] using hi
  | writeLineOp row =>
    simp only [applyOp, CsvWriter.WriteCsvLine, CsvWriter.HeaderUsage,
      Option.map_eq_some'] at h
    obtain ⟨u, hu, hq⟩ := h
    subst hq
    exact headerUsageUpd_mono _ _ _ hu i hi
  | headerUsageOp row =>
    simp only [applyOp, CsvWriter.HeaderUsage, Option.map_eq_some'] at h
    obtain ⟨u, hu, hq⟩ := h
    subst hq
    exact headerUsageUpd_mono _ _ _ hu i hi
  | writeLineRawOp row =>
    simp only [applyOp, Option.some.injEq] at h
    simpa [← h, CsvWriter.WriteCsvLineRaw] using hi
  | writeHeaderOp =>
    simp only [applyOp, Option.some.injEq] at h
    simpa [← h, CsvWriter.WriteHeader] using hi
  | sortOp newLines =>
    simp only [applyOp, Option.some.injEq] at h
    simpa [← h] using hi
  | flushOp =>
    simp only [applyOp, Option.some.injEq] at h
    subst h
    rw [List.getD_eq_getElem?_getD] at hi
    by_cases hl : p.lines.isEmpty <;>
      simp [CsvWriter.Flush, hl, foldl_raw_spec, CsvWriter.WriteHeader, hi]

/-- C7: the column-usage vector is monotonic over the lifetime of one table
write: along any sequence of post-SetHeader operations that completes
without an index panic, an entry that is true stays true, so no operation
ever resets usage to false before the table output is flushed. -/
theorem usage_monotonic (ops : List WOp) (p q : CsvWriter)
    (h : applyOps p ops = some q) :
    ∀ i, p.headerUsage.getD i false = true → q.headerUsage.getD i false = true := by
  induction ops generalizing p with
  | nil =>
    simp only [applyOps, List.foldlM_nil, Option.pure_def, Option.some.injEq] at h
    subst h
    exact fun i hi => hi
  | cons op ops ih =>
    simp only [applyOps, List.foldlM_cons] at h
    cases hstep : applyOp p op with
    | none =>
      rw [hstep] at h
      simp only [Option.bind_eq_bind, Option.none_bind] at h
      exact Option.noConfusion h
    | some r =>
      rw [hstep] at h
      simp only [Option.bind_eq_bind, Option.some_bind] at h
      intro i hi
      exact ih r h i (applyOp_usage_mono p r op hstep i hi)

/-- Witness for the C7 theorem: a concrete operation sequence on a one
column table with a required column. -/
theorem usage_monotonic_witness :
    (applyOps (NewCsvWriter.SetHeader ["a"] ["a"]) [WOp.writeLineOp ["y"], WOp.flushOp] =
      some { headers := ["a"], headerUsage := [true], lines := [],
             order := [], output := [["a"], ["y"]] }) ∧
    ({ headers := ["a"], headerUsage := [true], lines := [],
       order := [], output := [["a"], ["y"]] } : CsvWriter).headerUsage.getD 0 false = true := by
  refine ⟨by decide, ?_⟩
  exact usage_monotonic [WOp.writeLineOp ["y"], WOp.flushOp]
    (NewCsvWriter.SetHeader ["a"] ["a"]) _ (by decide) 0 (by decide)

lemma contains_iff_mem (l : List String) (a : String) : l.contains a = true ↔ a ∈ l := by
  simp [List.contains_iff_exists_mem_beq]

lemma maskDrop_fold_aux :
    ∀ (us : List Bool) (pre rest : List String) (j : Nat), rest.length = us.length →
      (List.enumFrom (j + pre.length) us).foldl maskDropStep (pre ++ rest, j) =
        (pre ++ filterByUsage us rest, j + us.count false) := by
  intro us
  induction us with
  | nil =>
    intro pre rest j hlen
    match rest with
    | [] => simp [filterByUsage]
  | cons u us ih =>
    intro pre rest j hlen
    match rest with
    | v :: vs =>
      simp only [List.length_cons] at hlen
      rw [List.enumFrom_cons, List.foldl_cons]
      cases u with
      | true =>
        have step : maskDropStep (pre ++ v :: vs, j) (j + pre.length, true) =
            (pre ++ v :: vs, j) := by
          simp [maskDropStep]
        rw [step]
        have hsplit : pre ++ v :: vs = (pre ++ [v]) ++ vs := by simp
        have harg : j + pre.length + 1 = j + (pre ++ [v]).length := by
          simp [Nat.add_assoc]
        rw [hsplit, harg, ih (pre ++ [v]) vs j (by omega)]
        simp [filterByUsage]
      | false =>
        have htake : (pre ++ v :: vs).take (j + pre.length - j) = pre := by
          have : j + pre.length - j = pre.length := by omega
          rw [this]
          exact List.take_left pre (v :: vs)
        have hdrop : (pre ++ v :: vs).drop (j + pre.length - j + 1) = vs := by
          have : j + pre.length - j + 1 = pre.length + 1 := by omega
          rw [this, ← List.drop_drop, List.drop_left]
          rfl
        have step : maskDropStep (pre ++ v :: vs, j) (j + pre.length, false) =
            (pre ++ vs, j + 1) := by
          simp only [maskDropStep, Bool.false_eq_true, if_false, htake, hdrop]
        rw [step]
        have harg : j + pre.length + 1 = (j + 1) + pre.length := by omega
        rw [harg, ih pre vs (j + 1) (by omega)]
        have : us.count false + 1 = (false :: us).count false := by
          simp [List.count_cons]
        simp [filterByUsage]
        omega

lemma maskDropGo_eq_filter (usage : List Bool) (vals : List String)
    (hlen : vals.length = usage.length) :
    maskDropGo usage vals = filterByUsage usage vals := by
  have h := maskDrop_fold_aux usage [] vals 0 hlen
  simp only [List.nil_append, List.length_nil, Nat.add_zero] at h
  simp only [maskDropGo, List.enum, h]

lemma filterByUsage_subset :
    ∀ (us : List Bool) (hs : List String), ∀ x ∈ filterByUsage us hs, x ∈ hs := by
  intro us
  induction us with
  | nil => intro hs x hx; simpa [filterByUsage] using hx
  | cons u us ih =>
    intro hs x hx
    match hs with
    | [] => simp [filterByUsage] at hx
    | h :: hs =>
      cases u with
      | true =>
        simp only [filterByUsage, if_true] at hx
        rcases List.mem_cons.mp hx with h1 | h2
        · simp [h1]
        · exact List.mem_cons_of_mem h (ih hs x h2)
      | false =>
        simp only [filterByUsage, Bool.false_eq_true, if_false] at hx
        exact List.mem_cons_of_mem h (ih hs x hx)

lemma mem_filterByUsage :
    ∀ (hs : List String) (us : List Bool) (i : Nat), hs.Nodup → us.length = hs.length →
      i < hs.length →
      (hs.getD i "" ∈ filterByUsage us hs ↔ us.getD i false = true) := by
  intro hs
  induction hs with
  | nil => intro us i _ _ hi; simp at hi
  | cons h hs ih =>
    intro us i hnd hlen hi
    match us with
    | u :: us =>
      simp only [List.length_cons] at hlen
      have hnd1 : h ∉ hs := (List.nodup_cons.mp hnd).1
      have hnd2 : hs.Nodup := (List.nodup_cons.mp hnd).2
      match i with
      | 0 =>
        cases u with
        | true => simp [filterByUsage]
        | false =>
          simp only [filterByUsage, Bool.false_eq_true, if_false, List.getD_cons_zero]
          constructor
          · intro hmem
            exact absurd (filterByUsage_subset us hs h hmem) hnd1
          · intro hfalse
            simp at hfalse
      | i + 1 =>
        simp only [List.length_cons] at hi
        have hi' : i < hs.length := by omega
        have helem : hs.getD i "" ∈ hs := by
          rw [List.getD_eq_getElem?_getD, List.getElem?_eq_getElem hi']
          exact List.getElem_mem hi'
        have hne : hs.getD i "" ≠ h := by
          intro he
          rw [he] at helem
          exact hnd1 helem
        cases u with
        | true =>
          simp only [filterByUsage, if_true, List.getD_cons_succ]
          rw [List.mem_cons]
          constructor
          · intro hor
            rcases hor with h1 | h2
            · exact absurd h1 hne
            · exact (ih us i hnd2 (by omega) hi').mp h2
          · intro hu
            exact Or.inr ((ih us i hnd2 (by omega) hi').mpr hu)
        | false =>
          simp only [filterByUsage, Bool.false_eq_true, if_false, List.getD_cons_succ]
          exact ih us i hnd2 (by omega) hi'

lemma guard_nonempty (r : List String) (i : Nat) :
    (decide (i < r.length) && !(r.getD i "" == "")) = !(r.getD i "" == "") := by
  by_cases h : i < r.length
  · simp [h]
  · have hempty : r.getD i "" = "" := by
      rw [List.getD_eq_getElem?_getD, List.getElem?_eq_none (by omega)]
      rfl
    rw [hempty]
    simp [h]

lemma writeRows_spec :
    ∀ (rows : List (List String)) (p : CsvWriter),
      (∀ r ∈ rows, r.length ≤ p.headerUsage.length) →
      ∃ q, writeRows p rows = some q ∧
        q.headers = p.headers ∧ q.order = p.order ∧ q.output = p.output ∧
        q.lines = p.lines ++ rows ∧
        q.headerUsage.length = p.headerUsage.length ∧
        ∀ i, q.headerUsage.getD i false =
          (p.headerUsage.getD i false || rows.any (fun r => !(r.getD i "" == ""))) := by
  intro rows
  induction rows with
  | nil =>
    intro p _
    exact ⟨p, rfl, rfl, rfl, rfl, by simp, rfl, by intro i; simp⟩
  | cons r rows ih =>
    intro p hlen
    obtain ⟨u, hu, hul, hup⟩ :=
      headerUsageUpd_of_le p.headerUsage r (hlen r (by simp))
    have hstep : p.WriteCsvLine r =
        some { p with lines := p.lines ++ [r], headerUsage := u } := by
      simp [CsvWriter.WriteCsvLine, CsvWriter.HeaderUsage, hu]
    obtain ⟨q, hq, h1, h2, h3, h4, h5, h6⟩ :=
      ih { p with lines := p.lines ++ [r], headerUsage := u }
        (by intro s hs; simp only; rw [hul]; exact hlen s (by simp [hs]))
    refine ⟨q, ?_, by simpa using h1, by simpa using h2, by simpa using h3, ?_, ?_, ?_⟩
    · simp only [writeRows, List.foldlM_cons] at *
      rw [hstep]
      simpa [Option.bind_eq_bind, Option.some_bind] using hq
    · rw [h4]; simp
    · rw [h5]; simpa using hul
    · intro i
      rw [h6 i]
      simp only
      rw [hup i, guard_nonempty]
      simp [Bool.or_assoc]

/-- Output of Flush on a non-empty line cache: the masked header followed by
every cached line, masked, and the cache is released. -/
lemma Flush_nonempty (p : CsvWriter) (h : ¬ p.lines.isEmpty = true) :
    p.Flush =
      { p with
        lines := [],
        output := (p.output ++ [p.maskLine p.headers]) ++ p.lines.map p.maskLine } := by
  simp only [CsvWriter.Flush, h, if_false]
  rw [foldl_raw_spec]
  have hm : p.lines.map p.WriteHeader.maskLine = p.lines.map p.maskLine := by
    apply List.map_congr_left
    intro v _
    rfl
  rw [hm]
  simp [CsvWriter.WriteHeader]

lemma maskLine_congr (q s : CsvWriter) (h1 : q.order = s.order)
    (h2 : q.headers = s.headers) (h3 : q.headerUsage = s.headerUsage) (v : List String) :
    q.maskLine v = s.maskLine v := by
  simp [CsvWriter.maskLine, h1, h2, h3]

/-- C1, counterexample: a table flushed with zero buffered rows emits the
full unmasked header, so the non-required column opt appears in the emitted
header although no emitted row supplies a non-empty value for it. -/
theorem column_omission_counterexample :
    (runBuffered ["req", "opt"] ["req"] []).map (fun q => q.output.getD 0 []) =
      some ["req", "opt"] ∧
    "opt" ∈ (["req", "opt"] : List String) ∧
    "opt" ∉ (["req"] : List String) := by
  exact ⟨by decide, by decide, by decide⟩

/-- C1, amended: for a table written through the buffered path with at least
one row (and no order remap in effect), a schema column appears in the
emitted header iff it is marked required or at least one emitted row
supplies a non-empty string at its position; in particular required columns
always appear, and a non-required column appears iff some row uses it. -/
theorem column_omission_iff (headers required : List String) (rows : List (List String))
    (hnd : headers.Nodup) (hlen : ∀ r ∈ rows, r.length = headers.length)
    (hne : rows ≠ []) :
    ∃ q, runBuffered headers required rows = some q ∧
      ∀ i, i < headers.length →
        (headers.getD i "" ∈ q.output.getD 0 [] ↔
          (headers.getD i "" ∈ required ∨ ∃ r ∈ rows, r.getD i "" ≠ "")) := by
  have husel := SetHeader_usage_length NewCsvWriter headers required
  obtain ⟨q0, hq0, h1, h2, h3, h4, h5, h6⟩ :=
    writeRows_spec rows (NewCsvWriter.SetHeader headers required)
      (by intro r hr; rw [husel, hlen r hr])
  have hlines : ¬ q0.lines.isEmpty = true := by
    rw [h4]
    simp only [CsvWriter.SetHeader, NewCsvWriter, List.nil_append]
    cases rows with
    | nil => exact absurd rfl hne
    | cons a l => simp
  refine ⟨q0.Flush, ?_, ?_⟩
  · simp [runBuffered, hq0]
  · intro i hi
    rw [Flush_nonempty q0 hlines]
    have hhd : q0.headers = headers := by
      rw [h1]; rfl
    have hord : q0.order = [] := by
      rw [h2]; rfl
    have hmask : q0.maskLine q0.headers = filterByUsage q0.headerUsage headers := by
      rw [CsvWriter.maskLine, hord, hhd]
      simp only [List.length_nil, Nat.lt_irrefl, if_false]
      exact maskDropGo_eq_filter q0.headerUsage headers (by rw [h5, husel])
    have hout : q0.output = [] := by rw [h3]; rfl
    simp only [hout, List.nil_append, hmask, List.singleton_append, List.getD_cons_zero]
    rw [mem_filterByUsage headers q0.headerUsage i hnd (by rw [h5, husel]) hi]
    rw [h6 i, SetHeader_usage_getD, Bool.or_eq_true, Bool.and_eq_true, List.any_eq_true]
    constructor
    · intro hcase
      rcases hcase with ⟨-, hc⟩ | ⟨r, hr, hv⟩
      · exact Or.inl ((contains_iff_mem required (headers.getD i "")).mp hc)
      · refine Or.inr ⟨r, hr, ?_⟩
        simpa using hv
    · intro hcase
      rcases hcase with hmem | ⟨r, hr, hv⟩
      · exact Or.inl ⟨by simpa using hi, (contains_iff_mem required (headers.getD i "")).mpr hmem⟩
      · refine Or.inr ⟨r, hr, ?_⟩
        simpa using hv

/-- Witness for the amended C1 theorem at a concrete table: one row that
uses the optional column opt but leaves the required column and the column
unused empty. -/
theorem column_omission_iff_witness :
    ((["req", "opt", "unused"] : List String).Nodup ∧
      (∀ r ∈ [["", "x", ""]], List.length r = (["req", "opt", "unused"] : List String).length) ∧
      ([["", "x", ""]] : List (List String)) ≠ []) ∧
    ∃ q, runBuffered ["req", "opt", "unused"] ["req"] [["", "x", ""]] = some q ∧
      ∀ i, i < (["req", "opt", "unused"] : List String).length →
        ((["req", "opt", "unused"] : List String).getD i "" ∈ q.output.getD 0 [] ↔
          ((["req", "opt", "unused"] : List String).getD i "" ∈ (["req"] : List String) ∨
            ∃ r ∈ [["", "x", ""]], r.getD i "" ≠ "")) := by
  refine ⟨⟨by decide, by decide, by decide⟩, ?_⟩
  exact column_omission_iff ["req", "opt", "unused"] ["req"] [["", "x", ""]]
    (by decide) (by decide) (by decide)

lemma getD_default_of_le (r : List String) (i : Nat) (h : r.length ≤ i) :
    r.getD i "" = "" := by
  rw [List.getD_eq_getElem?_getD, List.getElem?_eq_none h]
  rfl

lemma probeRow_length (e : Nat) (r : List String) : (probeRow e r).length = r.length := by
  simp [probeRow, List.enum_length]

lemma probeRow_getD (e : Nat) (r : List String) (i : Nat) :
    (probeRow e r).getD i "" =
      if i < r.length then (if e ≤ i then "-" else r.getD i "") else "" := by
  by_cases h : i < r.length
  · rw [List.getD_eq_getElem?_getD]
    simp only [probeRow, List.getElem?_map, List.getElem?_enum,
      List.getElem?_eq_getElem h, Option.map_some', Option.getD_some]
    simp [h, List.getD_eq_getElem?_getD, List.getElem?_eq_getElem h]
  · rw [getD_default_of_le]
    · simp [h]
    · rw [probeRow_length]; omega

lemma usagePass_spec :
    ∀ (rows : List (List String)) (p : CsvWriter) (e : Nat),
      (∀ r ∈ rows, r.length ≤ p.headerUsage.length) →
      ∃ q, usagePass p e rows = some q ∧
        q.headers = p.headers ∧ q.order = p.order ∧ q.output = p.output ∧
        q.lines = p.lines ∧
        q.headerUsage.length = p.headerUsage.length ∧
        ∀ i, q.headerUsage.getD i false =
          (p.headerUsage.getD i false ||
            rows.any (fun r => !((probeRow e r).getD i "" == ""))) := by
  intro rows
  induction rows with
  | nil =>
    intro p e _
    exact ⟨p, rfl, rfl, rfl, rfl, rfl, rfl, by intro i; simp⟩
  | cons r rows ih =>
    intro p e hlen
    obtain ⟨u, hu, hul, hup⟩ :=
      headerUsageUpd_of_le p.headerUsage (probeRow e r)
        (by rw [probeRow_length]; exact hlen r (by simp))
    have hstep : p.HeaderUsage (probeRow e r) = some { p with headerUsage := u } := by
      simp [CsvWriter.HeaderUsage, hu]
    obtain ⟨q, hq, h1, h2, h3, h4, h5, h6⟩ :=
      ih { p with headerUsage := u } e
        (by intro s hs; simp only; rw [hul]; exact hlen s (by simp [hs]))
    refine ⟨q, ?_, by simpa using h1, by simpa using h2, by simpa using h3,
      by simpa using h4, ?_, ?_⟩
    · simp only [usagePass, List.foldlM_cons] at *
      rw [hstep]
      simpa [Option.bind_eq_bind, Option.some_bind] using hq
    · rw [h5]; simpa using hul
    · intro i
      rw [h6 i]
      simp only
      rw [hup i, guard_nonempty]
      simp [Bool.or_assoc]

lemma list_bool_ext (a b : List Bool) (hlen : a.length = b.length)
    (h : ∀ i, a.getD i false = b.getD i false) : a = b := by
  apply List.ext_getElem hlen
  intro n h1 h2
  have hn := h n
  rw [List.getD_eq_getElem?_getD, List.getD_eq_getElem?_getD,
    List.getElem?_eq_getElem h1, List.getElem?_eq_getElem h2] at hn
  simpa using hn

/-- C2, counterexample: the two paths differ on two concrete tables.  First,
with an extension column (position 1 and later) whose every actual value is
empty, the placeholder probe marks the column used, so the streaming path
keeps a column that the buffered path omits.  Second, with zero rows the
buffered path emits the full unmasked header while the streaming path emits
the masked one. -/
theorem stream_buffer_counterexample :
    ((runBuffered ["a", "e"] ["a"] [["x", ""]]).map CsvWriter.output =
        some [["a"], ["x"]] ∧
      (runStreaming ["a", "e"] ["a"] 1 [["x", ""]]).map CsvWriter.output =
        some [["a", "e"], ["x", ""]]) ∧
    ((runBuffered ["a", "b"] ["a"] []).map CsvWriter.output = some [["a", "b"]] ∧
      (runStreaming ["a", "b"] ["a"] 2 []).map CsvWriter.output = some [["a"]]) := by
  exact ⟨⟨by decide, by decide⟩, ⟨by decide, by decide⟩⟩

/-- C2, amended: the buffered and the streaming path produce identical
record sequences provided the table has at least one row and every
extension column is either required or receives a non-empty value from at
least one actual row (so that the placeholder probing of pass 1 does not
over-estimate the usage vector). -/
theorem stream_buffer_equiv (headers required : List String) (extStart : Nat)
    (rows : List (List String)) (hlen : ∀ r ∈ rows, r.length = headers.length)
    (hne : rows ≠ [])
    (hext : ∀ i, extStart ≤ i → i < headers.length →
      (headers.getD i "" ∈ required ∨ ∃ r ∈ rows, r.getD i "" ≠ "")) :
    ∃ qb qs, runBuffered headers required rows = some qb ∧
      runStreaming headers required extStart rows = some qs ∧
      qb.output = qs.output := by
  have husel := SetHeader_usage_length NewCsvWriter headers required
  obtain ⟨qb0, hqb0, b1, b2, b3, b4, b5, b6⟩ :=
    writeRows_spec rows (NewCsvWriter.SetHeader headers required)
      (by intro r hr; rw [husel, hlen r hr])
  obtain ⟨qs0, hqs0, s1, s2, s3, s4, s5, s6⟩ :=
    usagePass_spec rows (NewCsvWriter.SetHeader headers required) extStart
      (by intro r hr; rw [husel, hlen r hr])
  have husage : qb0.headerUsage = qs0.headerUsage := by
    apply list_bool_ext _ _ (by rw [b5, s5])
    intro i
    rw [b6 i, s6 i]
    rw [Bool.eq_iff_iff, Bool.or_eq_true, Bool.or_eq_true, List.any_eq_true,
      List.any_eq_true]
    constructor
    · intro hcase
      rcases hcase with hx | ⟨r, hr, hv⟩
      · exact Or.inl hx
      · have hv' : r.getD i "" ≠ "" := by simpa using hv
        have hir : i < r.length := by
          by_contra hc
          exact hv' (getD_default_of_le r i (by omega))
        have hgd : r.getD i "" = r[i] := by
          rw [List.getD_eq_getElem?_getD, List.getElem?_eq_getElem hir]
          rfl
        rw [hgd] at hv'
        refine Or.inr ⟨r, hr, ?_⟩
        rw [probeRow_getD]
        by_cases he : extStart ≤ i <;> simp [hir, he, hv']
    · intro hcase
      rcases hcase with hx | ⟨r, hr, hv⟩
      · exact Or.inl hx
      · have hv' : (probeRow extStart r).getD i "" ≠ "" := by simpa using hv
        rw [probeRow_getD] at hv'
        have hir : i < r.length := by
          by_contra hc
          simp [hc] at hv'
        have hih : i < headers.length := by rw [← hlen r hr]; exact hir
        by_cases he : extStart ≤ i
        · rcases hext i he hih with hreq | ⟨r', hr', hv''⟩
          · refine Or.inl ?_
            rw [SetHeader_usage_getD, decide_eq_true hih,
              (contains_iff_mem required (headers.getD i "")).mpr hreq]
            rfl
          · have hir' : i < r'.length := by
              by_contra hc
              exact hv'' (getD_default_of_le r' i (by omega))
            have hgd' : r'.getD i "" = r'[i] := by
              rw [List.getD_eq_getElem?_getD, List.getElem?_eq_getElem hir']
              rfl
            rw [hgd'] at hv''
            refine Or.inr ⟨r', hr', ?_⟩
            rw [hgd']
            simpa using hv''
        · simp only [hir, if_true, he, if_false] at hv'
          refine Or.inr ⟨r, hr, ?_⟩
          simpa using hv'
  have hlines : ¬ qb0.lines.isEmpty = true := by
    rw [b4]
    simp only [CsvWriter.SetHeader, NewCsvWriter, List.nil_append]
    cases rows with
    | nil => exact absurd rfl hne
    | cons a l => simp
  refine ⟨qb0.Flush, rows.foldl CsvWriter.WriteCsvLineRaw qs0.WriteHeader, ?_, ?_, ?_⟩
  · simp [runBuffered, hqb0]
  · simp [runStreaming, hqs0]
  · have hmeq : ∀ v, qb0.maskLine v = qs0.maskLine v := by
      intro v
      exact maskLine_congr qb0 qs0 (by rw [b2, s2]) (by rw [b1, s1]) husage v
    have hbl : qb0.lines = rows := by
      rw [b4]; rfl
    have hbo : qb0.output = [] := by rw [b3]; rfl
    have hso : qs0.output = [] := by rw [s3]; rfl
    have hh : qb0.headers = qs0.headers := by rw [b1, s1]
    have hstream : (rows.foldl CsvWriter.WriteCsvLineRaw qs0.WriteHeader).output =
        (qs0.output ++ [qs0.maskLine qs0.headers]) ++ rows.map qs0.maskLine := by
      rw [foldl_raw_spec]
      have hwhm : rows.map qs0.WriteHeader.maskLine = rows.map qs0.maskLine :=
        List.map_congr_left (fun v _ => rfl)
      simp only [hwhm]
      simp [CsvWriter.WriteHeader]
    have hbuf : qb0.Flush.output =
        (qb0.output ++ [qb0.maskLine qb0.headers]) ++ qb0.lines.map qb0.maskLine := by
      rw [Flush_nonempty qb0 hlines]
    rw [hbuf, hstream, hbl, hbo, hso]
    simp only [List.nil_append]
    rw [List.map_congr_left (fun v _ => hmeq v), hmeq qb0.headers, hh]

/-- Witness for the amended C2 theorem at a concrete table whose extension
column (position 1) receives a non-empty value in the single row. -/
theorem stream_buffer_equiv_witness :
    ((∀ r ∈ [["x", "y"]], List.length r = (["a", "e"] : List String).length) ∧
      ([["x", "y"]] : List (List String)) ≠ [] ∧
      (∀ i, 1 ≤ i → i < (["a", "e"] : List String).length →
        ((["a", "e"] : List String).getD i "" ∈ (["a"] : List String) ∨
          ∃ r ∈ [["x", "y"]], r.getD i "" ≠ ""))) ∧
    ∃ qb qs, runBuffered ["a", "e"] ["a"] [["x", "y"]] = some qb ∧
      runStreaming ["a", "e"] ["a"] 1 [["x", "y"]] = some qs ∧
      qb.output = qs.output := by
  have hext : ∀ i, 1 ≤ i → i < (["a", "e"] : List String).length →
      ((["a", "e"] : List String).getD i "" ∈ (["a"] : List String) ∨
        ∃ r ∈ [["x", "y"]], r.getD i "" ≠ "") := by
    intro i h1 h2
    have hl2 : i < 2 := by simpa using h2
    have hi : i = 1 := by omega
    subst hi
    exact Or.inr ⟨["x", "y"], by simp, by decide⟩
  exact ⟨⟨by decide, by decide, hext⟩,
    stream_buffer_equiv ["a", "e"] ["a"] 1 [["x", "y"]] (by decide) (by decide) hext⟩

lemma maskOrder_fold_aux (order : List (String × Nat)) (hs0 vs0 : List String) :
    ∀ (us : List Bool) (k : Nat) (acc : List String),
      k + us.length ≤ hs0.length → k + us.length ≤ vs0.length →
      (List.enumFrom k us).foldl (maskOrderStep order hs0 vs0) acc =
        maskOrderRec order (hs0.drop k) us (vs0.drop k) acc := by
  intro us
  induction us with
  | nil =>
    intro k acc _ _
    cases hs0.drop k <;> cases vs0.drop k <;> rfl
  | cons u us ih =>
    intro k acc h1 h2
    have hk1 : k < hs0.length := by
      simp only [List.length_cons] at h1
      omega
    have hk2 : k < vs0.length := by
      simp only [List.length_cons] at h2
      omega
    have hgd1 : hs0.getD k "" = hs0[k] := by
      rw [List.getD_eq_getElem?_getD, List.getElem?_eq_getElem hk1]
      rfl
    have hgd2 : vs0.getD k "" = vs0[k] := by
      rw [List.getD_eq_getElem?_getD, List.getElem?_eq_getElem hk2]
      rfl
    rw [List.enumFrom_cons, List.foldl_cons, List.drop_eq_getElem_cons hk1,
      List.drop_eq_getElem_cons hk2]
    simp only [maskOrderStep, maskOrderRec, hgd1, hgd2]
    cases hlk : order.lookup hs0[k] with
    | some j =>
      have := ih (k + 1) (acc.set j vs0[k])
        (by simp only [List.length_cons] at h1; omega)
        (by simp only [List.length_cons] at h2; omega)
      simpa using this
    | none =>
      have := ih (k + 1) (if u then acc ++ [vs0[k]] else acc)
        (by simp only [List.length_cons] at h1; omega)
        (by simp only [List.length_cons] at h2; omega)
      cases u <;> simpa using this

lemma maskOrderGo_eq_rec (order : List (String × Nat)) (hs : List String)
    (us : List Bool) (vs : List String) (h1 : us.length = hs.length)
    (h2 : vs.length = hs.length) :
    maskOrderGo order hs us vs =
      maskOrderRec order hs us vs (List.replicate order.length "") := by
  have h := maskOrder_fold_aux order hs vs us 0 (List.replicate order.length "")
    (by omega) (by omega)
  simpa [maskOrderGo, List.enum] using h

lemma maskOrderRec_split (order : List (String × Nat)) :
    ∀ (hs : List String) (us : List Bool) (vs : List String) (base tail : List String),
      us.length = hs.length → vs.length = hs.length →
      (∀ n j, order.lookup n = some j → j < base.length) →
      maskOrderRec order hs us vs (base ++ tail) =
        setsOnly order hs vs base ++ (tail ++ unnamedUsed order hs us vs) := by
  intro hs
  induction hs with
  | nil =>
    intro us vs base tail h1 h2 _
    match us, vs with
    | [], [] => simp [maskOrderRec, setsOnly, unnamedUsed]
  | cons h hs ih =>
    intro us vs base tail h1 h2 hb
    match us, vs with
    | u :: us, v :: vs =>
      simp only [List.length_cons] at h1 h2
      cases hlk : order.lookup h with
      | some j =>
        have hj : j < base.length := hb h j hlk
        simp only [maskOrderRec, setsOnly, unnamedUsed, hlk]
        rw [List.set_append, if_pos hj]
        rw [ih us vs (base.set j v) tail (by omega) (by omega)
          (by intro n j' hn; rw [List.length_set]; exact hb n j' hn)]
      | none =>
        cases u with
        | true =>
          simp only [maskOrderRec, setsOnly, unnamedUsed, hlk, if_true]
          have hshift : (base ++ tail) ++ [v] = base ++ (tail ++ [v]) := by
            simp
          rw [hshift, ih us vs base (tail ++ [v]) (by omega) (by omega) hb]
          simp
        | false =>
          simp only [maskOrderRec, setsOnly, unnamedUsed, hlk, Bool.false_eq_true,
            if_false]
          exact ih us vs base tail (by omega) (by omega) hb

lemma setsOnly_length (order : List (String × Nat)) :
    ∀ (hs vs acc : List String), (setsOnly order hs vs acc).length = acc.length := by
  intro hs
  induction hs with
  | nil => intro vs acc; rfl
  | cons h hs ih =>
    intro vs acc
    match vs with
    | [] => rfl
    | v :: vs =>
      cases hlk : order.lookup h with
      | some j =>
        simp only [setsOnly, hlk]
        rw [ih vs (acc.set j v), List.length_set]
      | none =>
        simp only [setsOnly, hlk]
        exact ih vs acc

lemma setsOnly_getD (order : List (String × Nat)) :
    ∀ (hs vs acc : List String) (k : Nat), k < acc.length →
      (setsOnly order hs vs acc).getD k "" =
        (match (hs.zip vs).reverse.find? (fun q => order.lookup q.1 == some k) with
          | some q => q.2
          | none => acc.getD k "") := by
  intro hs
  induction hs with
  | nil =>
    intro vs acc k _
    simp [setsOnly]
  | cons h hs ih =>
    intro vs acc k hk
    match vs with
    | [] => simp [setsOnly]
    | v :: vs =>
      rw [List.zip_cons_cons, List.reverse_cons, List.find?_append]
      cases hlk : order.lookup h with
      | some j =>
        simp only [setsOnly, hlk]
        rw [ih vs (acc.set j v) k (by rw [List.length_set]; exact hk)]
        cases hfind : (hs.zip vs).reverse.find? (fun q => order.lookup q.1 == some k) with
        | some q => simp [hfind, Option.or]
        | none =>
          simp only [hfind, Option.none_or]
          by_cases hjk : j = k
          · subst hjk
            rw [List.find?_cons_of_pos _ (by simp [hlk])]
            simp only
            rw [List.getD_eq_getElem?_getD, List.getElem?_set_self hk]
            rfl
          · rw [List.find?_cons_of_neg _ (by simp [hlk, hjk])]
            simp only [List.find?_nil]
            rw [List.getD_eq_getElem?_getD, List.getElem?_set_ne (by omega),
              ← List.getD_eq_getElem?_getD]
      | none =>
        simp only [setsOnly, hlk]
        rw [ih vs acc k hk]
        cases hfind : (hs.zip vs).reverse.find? (fun q => order.lookup q.1 == some k) with
        | some q => simp [hfind, Option.or]
        | none =>
          simp only [hfind, Option.none_or]
          rw [List.find?_cons_of_neg _ (by simp [hlk])]
          simp only [List.find?_nil]

lemma find?_eq_some_of_unique {α : Type} (l : List α) (p : α → Bool) (a : α)
    (ha : a ∈ l) (hpa : p a = true) (huniq : ∀ x ∈ l, p x = true → x = a) :
    l.find? p = some a := by
  induction l with
  | nil => simp at ha
  | cons x l ih =>
    by_cases hx : p x = true
    · have hxa : x = a := huniq x (by simp) hx
      subst hxa
      exact List.find?_cons_of_pos l hx
    · rw [List.find?_cons_of_neg l hx]
      apply ih
      · rcases List.mem_cons.mp ha with h1 | h2
        · subst h1; exact absurd hpa hx
        · exact h2
      · intro y hy hpy
        exact huniq y (by simp [hy]) hpy

lemma setsOnly_eq_map (order : List (String × Nat)) (keep hs vs : List String)
    (hspec : ∀ n k, order.lookup n = some k ↔ keep[k]? = some n)
    (hnd : hs.Nodup) (hsub : ∀ n ∈ keep, n ∈ hs) (hlen : vs.length = hs.length) :
    setsOnly order hs vs (List.replicate keep.length "") =
      keep.map (fun n => vs.getD (hs.indexOf n) "") := by
  apply List.ext_getElem
  · rw [setsOnly_length, List.length_replicate, List.length_map]
  · intro k hk1 hk2
    have hkk : k < keep.length := by
      rw [setsOnly_length, List.length_replicate] at hk1
      exact hk1
    have hgd : (setsOnly order hs vs (List.replicate keep.length ""))[k] =
        (setsOnly order hs vs (List.replicate keep.length "")).getD k "" := by
      rw [List.getD_eq_getElem?_getD, List.getElem?_eq_getElem hk1]
      rfl
    rw [hgd, setsOnly_getD order hs vs (List.replicate keep.length "") k
      (by rw [List.length_replicate]; exact hkk)]
    set n := keep[k] with hn
    have hmemk : n ∈ keep := List.getElem_mem hkk
    have hmemh : n ∈ hs := hsub n hmemk
    have hidx : hs.indexOf n < hs.length := List.indexOf_lt_length.mpr hmemh
    have hidxv : hs.indexOf n < vs.length := by omega
    have hlkn : order.lookup n = some k :=
      (hspec n k).mpr (by rw [List.getElem?_eq_getElem hkk])
    have hmempair : (n, vs[hs.indexOf n]) ∈ (hs.zip vs).reverse := by
      rw [List.mem_reverse, List.mem_iff_getElem]
      refine ⟨hs.indexOf n, by rw [List.length_zip]; omega, ?_⟩
      rw [List.getElem_zip, List.getElem_indexOf hidx]
    have hfind : (hs.zip vs).reverse.find? (fun q => order.lookup q.1 == some k) =
        some (n, vs[hs.indexOf n]) := by
      apply find?_eq_some_of_unique _ _ _ hmempair (by simp [hlkn])
      intro x hx hpx
      rw [List.mem_reverse, List.mem_iff_getElem] at hx
      obtain ⟨t, ht, hxt⟩ := hx
      have htl : t < hs.length := by
        rw [List.length_zip] at ht
        omega
      have htv : t < vs.length := by
        rw [List.length_zip] at ht
        omega
      have hxval : x = (hs[t], vs[t]) := by
        rw [← hxt, List.getElem_zip]
      have hlkx : order.lookup x.1 = some k := by
        simpa using hpx
      have hx1 : x.1 = n := by
        have h1 := (hspec x.1 k).mp hlkx
        rw [List.getElem?_eq_getElem hkk] at h1
        exact (Option.some_inj.mp h1).symm
      have hhst : hs[t] = n := by
        have hfst : (hs[t], vs[t]).1 = n := by
          rw [← hxval]
          exact hx1
        simpa using hfst
      have htidx : t = hs.indexOf n := by
        have heq2 : hs[t] = hs[hs.indexOf n] := by
          rw [hhst, List.getElem_indexOf hidx]
        exact (hnd.getElem_inj_iff).mp heq2
      subst htidx
      rw [hxval, hhst]
    rw [hfind]
    simp only
    rw [List.getElem_map]
    rw [List.getD_eq_getElem?_getD, List.getElem?_eq_getElem hidxv]
    rfl

lemma lookup_eq_none_of_fresh (m : List (String × Nat)) (x : String)
    (h : ∀ q ∈ m, q.1 ≠ x) : m.lookup x = none := by
  induction m with
  | nil => rfl
  | cons q m ih =>
    obtain ⟨c, b⟩ := q
    have hq : c ≠ x := h (c, b) (by simp)
    have hbeq : (x == c) = false := by
      simp only [beq_eq_false_iff_ne, ne_eq]
      exact fun hc => hq hc.symm
    simp only [List.lookup_cons, hbeq]
    exact ih (fun q hqm => h q (by simp [hqm]))

lemma SetOrder_fold_lookup (hs : List String) :
    ∀ (ord : List String) (m : List (String × Nat)) (a : Nat),
      ord.Nodup → (∀ q ∈ m, q.1 ∉ ord) → ∀ n,
      ((ord.foldl (fun acc name =>
          if hs.contains name then (mapInsert acc.1 name acc.2, acc.2 + 1) else acc)
        (m, a)).1.lookup n) =
        (if n ∈ ord.filter hs.contains
          then some (a + (ord.filter hs.contains).indexOf n)
          else m.lookup n) := by
  intro ord
  induction ord with
  | nil =>
    intro m a _ _ n
    simp
  | cons x ord ih =>
    intro m a hnd hfresh n
    have hndtl : ord.Nodup := (List.nodup_cons.mp hnd).2
    have hxord : x ∉ ord := (List.nodup_cons.mp hnd).1
    by_cases hx : hs.contains x = true
    · have hins : mapInsert m x a = m ++ [(x, a)] := by
        simp only [mapInsert]
        rw [List.filter_eq_self.mpr]
        intro q hq
        simpa using fun hc => hfresh q hq (by simp [hc])
      have hfresh' : ∀ q ∈ m ++ [(x, a)], q.1 ∉ ord := by
        intro q hq
        rcases List.mem_append.mp hq with h1 | h2
        · exact fun hc => hfresh q h1 (by simp [hc])
        · simp only [List.mem_singleton] at h2
          rw [h2]
          exact hxord
      simp only [List.foldl_cons, hx, if_true, hins]
      rw [ih (m ++ [(x, a)]) (a + 1) hndtl hfresh' n]
      rw [List.filter_cons_of_pos hx]
      by_cases hnx : n = x
      · subst hnx
        have hnk' : n ∉ ord.filter hs.contains :=
          fun hc => hxord (List.mem_of_mem_filter hc)
        rw [if_neg hnk', if_pos (by simp)]
        rw [List.lookup_append,
          lookup_eq_none_of_fresh m n (fun q hq => fun hc => hfresh q hq (by simp [hc])),
          Option.none_or]
        simp only [List.lookup_cons, BEq.refl]
        rw [List.indexOf_cons_self, Nat.add_zero]
      · have hmem_iff : n ∈ x :: ord.filter hs.contains ↔
            n ∈ ord.filter hs.contains := by
          simp [hnx]
        by_cases hnk : n ∈ ord.filter hs.contains
        · rw [if_pos hnk, if_pos (hmem_iff.mpr hnk)]
          rw [List.indexOf_cons_ne _ (fun hc => hnx hc.symm)]
          congr 1
          omega
        · rw [if_neg hnk, if_neg (fun hc => hnk (hmem_iff.mp hc))]
          rw [List.lookup_append]
          have hsing : ([(x, a)] : List (String × Nat)).lookup n = none := by
            have hbeq : (n == x) = false := by
              simp only [beq_eq_false_iff_ne, ne_eq]
              exact hnx
            simp [List.lookup_cons, hbeq]
          rw [hsing, Option.or_none]
    · simp only [List.foldl_cons, hx, Bool.false_eq_true, if_false]
      rw [List.filter_cons_of_neg hx]
      exact ih m a hndtl (fun q hq => fun hc => hfresh q hq (by simp [hc])) n

lemma SetOrder_fold_length (hs : List String) :
    ∀ (ord : List String) (m : List (String × Nat)) (a : Nat),
      ord.Nodup → (∀ q ∈ m, q.1 ∉ ord) →
      ((ord.foldl (fun acc name =>
          if hs.contains name then (mapInsert acc.1 name acc.2, acc.2 + 1) else acc)
        (m, a)).1.length) =
        m.length + (ord.filter hs.contains).length := by
  intro ord
  induction ord with
  | nil =>
    intro m a _ _
    simp
  | cons x ord ih =>
    intro m a hnd hfresh
    have hndtl : ord.Nodup := (List.nodup_cons.mp hnd).2
    have hxord : x ∉ ord := (List.nodup_cons.mp hnd).1
    by_cases hx : hs.contains x = true
    · have hins : mapInsert m x a = m ++ [(x, a)] := by
        simp only [mapInsert]
        rw [List.filter_eq_self.mpr]
        intro q hq
        simpa using fun hc => hfresh q hq (by simp [hc])
      have hfresh' : ∀ q ∈ m ++ [(x, a)], q.1 ∉ ord := by
        intro q hq
        rcases List.mem_append.mp hq with h1 | h2
        · exact fun hc => hfresh q h1 (by simp [hc])
        · simp only [List.mem_singleton] at h2
          rw [h2]
          exact hxord
      simp only [List.foldl_cons, hx, if_true, hins]
      rw [ih (m ++ [(x, a)]) (a + 1) hndtl hfresh']
      rw [List.filter_cons_of_pos hx]
      simp only [List.length_append, List.length_singleton, List.length_cons,
        List.length_nil]
      omega
    · simp only [List.foldl_cons, hx, Bool.false_eq_true, if_false]
      rw [List.filter_cons_of_neg hx]
      exact ih m a hndtl (fun q hq => fun hc => hfresh q hq (by simp [hc]))

lemma pipeline_order_lookup (headers required ord : List String) (hnd : ord.Nodup) :
    ∀ n k, (((NewCsvWriter.SetHeader headers required).SetOrder ord).order.lookup n = some k ↔
      (ord.filter headers.contains)[k]? = some n) := by
  intro n k
  have hkeepnd : (ord.filter headers.contains).Nodup :=
    hnd.filter headers.contains
  simp only [CsvWriter.SetOrder, CsvWriter.SetHeader, NewCsvWriter]
  rw [SetOrder_fold_lookup headers ord [] 0 hnd (by simp) n]
  by_cases hmem : n ∈ ord.filter headers.contains
  · rw [if_pos hmem]
    have hidx : (ord.filter headers.contains).indexOf n <
        (ord.filter headers.contains).length :=
      List.indexOf_lt_length.mpr hmem
    constructor
    · intro hsome
      have hk : k = (ord.filter headers.contains).indexOf n := by
        have := Option.some_inj.mp hsome
        omega
      subst hk
      rw [List.getElem?_eq_getElem hidx, List.getElem_indexOf hidx]
    · intro hget
      obtain ⟨hklt, hkv⟩ := List.getElem?_eq_some.mp hget
      have hkidx : (ord.filter headers.contains).indexOf n = k := by
        have := List.get_indexOf hkeepnd ⟨k, hklt⟩
        simp only [List.get_eq_getElem, hkv] at this
        exact this
      rw [hkidx]
      congr 1
      omega
  · rw [if_neg hmem]
    constructor
    · intro hc
      exact absurd hc (by simp)
    · intro hget
      obtain ⟨hklt, hkv⟩ := List.getElem?_eq_some.mp hget
      exact absurd (hkv ▸ List.getElem_mem hklt) hmem

lemma pipeline_order_length (headers required ord : List String) (hnd : ord.Nodup) :
    ((NewCsvWriter.SetHeader headers required).SetOrder ord).order.length =
      (ord.filter headers.contains).length := by
  simp only [CsvWriter.SetOrder, CsvWriter.SetHeader, NewCsvWriter]
  rw [SetOrder_fold_length headers ord [] 0 hnd (by simp)]
  simp

/-- C6, counterexample: with a declared order naming both columns, the
column b is not required and never receives a non-empty value, yet it is
emitted in the header and in the row: the usage mask is not applied to
explicitly ordered columns. -/
theorem reorder_omission_counterexample :
    (runBufferedOrd ["a", "b"] [] ["a", "b"] [["x", ""]]).map CsvWriter.output =
      some [["a", "b"], ["x", ""]] ∧
    (runBufferedOrd ["a", "b"] [] ["a", "b"] [["x", ""]]).map
      (fun q => q.output.getD 0 []) = some ["a", "b"] ∧
    "b" ∈ (["a", "b"] : List String) ∧
    "b" ∉ ([] : List String) ∧
    (∀ r ∈ [["x", ""]], r.getD 1 "" = "") := by
  exact ⟨by decide, by decide, by decide, by decide, by decide⟩

/-- C6, amended: when a preferred column order has been supplied through
SetOrder before any output, the masked header and every masked row place
the explicitly named schema columns first, in the supplied relative order
and regardless of their usage flag, followed by the used-but-unnamed
columns in their original relative order; the usage-based omission applies
only to the unnamed columns. -/
theorem reorder_layout (headers required ord : List String) (usage : List Bool)
    (vals : List String) (hndh : headers.Nodup) (hndo : ord.Nodup)
    (hu : usage.length = headers.length) (hv : vals.length = headers.length)
    (hne : ord.filter headers.contains ≠ []) :
    CsvWriter.maskLine
      { (NewCsvWriter.SetHeader headers required).SetOrder ord with headerUsage := usage }
      vals =
      (ord.filter headers.contains).map
        (fun n => vals.getD (headers.indexOf n) "") ++
      unnamedUsed ((NewCsvWriter.SetHeader headers required).SetOrder ord).order
        headers usage vals := by
  have hlen : ((NewCsvWriter.SetHeader headers required).SetOrder ord).order.length =
      (ord.filter headers.contains).length :=
    pipeline_order_length headers required ord hndo
  have hspec := pipeline_order_lookup headers required ord hndo
  have hpos : 0 < ((NewCsvWriter.SetHeader headers required).SetOrder ord).order.length := by
    rw [hlen]
    exact List.length_pos.mpr hne
  have hsub : ∀ n ∈ ord.filter headers.contains, n ∈ headers := by
    intro n hn
    have := List.mem_filter.mp hn
    exact (contains_iff_mem headers n).mp this.2
  have hbound : ∀ n j,
      ((NewCsvWriter.SetHeader headers required).SetOrder ord).order.lookup n = some j →
      j < (List.replicate
        ((NewCsvWriter.SetHeader headers required).SetOrder ord).order.length "").length := by
    intro n j hj
    obtain ⟨hjlt, -⟩ := List.getElem?_eq_some.mp ((hspec n j).mp hj)
    rw [List.length_replicate, hlen]
    exact hjlt
  have hstate :
      CsvWriter.maskLine
        { (NewCsvWriter.SetHeader headers required).SetOrder ord with headerUsage := usage }
        vals =
      maskOrderGo ((NewCsvWriter.SetHeader headers required).SetOrder ord).order
        headers usage vals := by
    simp only [CsvWriter.maskLine]
    rw [if_pos hpos]
    rfl
  rw [hstate,
    maskOrderGo_eq_rec ((NewCsvWriter.SetHeader headers required).SetOrder ord).order
      headers usage vals hu hv]
  have hsplit := maskOrderRec_split
    ((NewCsvWriter.SetHeader headers required).SetOrder ord).order headers usage vals
    (List.replicate ((NewCsvWriter.SetHeader headers required).SetOrder ord).order.length "")
    [] hu hv hbound
  rw [List.append_nil] at hsplit
  rw [hsplit, List.nil_append]
  congr 1
  have hrepl : List.replicate
      ((NewCsvWriter.SetHeader headers required).SetOrder ord).order.length "" =
      List.replicate (ord.filter headers.contains).length "" := by
    rw [hlen]
  rw [hrepl]
  exact setsOnly_eq_map _ _ headers vals hspec hndh hsub hv

/-- Witness for the amended C6 theorem at a concrete schema, order, usage
vector and row. -/
theorem reorder_layout_witness :
    ((["a", "b", "c"] : List String).Nodup ∧ (["b"] : List String).Nodup ∧
      ([true, false, true] : List Bool).length = (["a", "b", "c"] : List String).length ∧
      (["x", "y", "z"] : List String).length = (["a", "b", "c"] : List String).length ∧
      (["b"] : List String).filter (["a", "b", "c"] : List String).contains ≠ []) ∧
    CsvWriter.maskLine
      { (NewCsvWriter.SetHeader ["a", "b", "c"] []).SetOrder ["b"] with
        headerUsage := [true, false, true] } ["x", "y", "z"] =
      ((["b"] : List String).filter (["a", "b", "c"] : List String).contains).map
        (fun n => (["x", "y", "z"] : List String).getD
          ((["a", "b", "c"] : List String).indexOf n) "") ++
      unnamedUsed ((NewCsvWriter.SetHeader ["a", "b", "c"] []).SetOrder ["b"]).order
        ["a", "b", "c"] [true, false, true] ["x", "y", "z"] := by
  refine ⟨⟨by decide, by decide, by decide, by decide, by decide⟩, ?_⟩
  exact reorder_layout ["a", "b", "c"] [] ["b"] [true, false, true] ["x", "y", "z"]
    (by decide) (by decide) (by decide) (by decide) (by decide)

lemma goStrLtChars_neg_trans :
    ∀ (a b c : List Char), goStrLtChars b a = false → goStrLtChars c b = false →
      goStrLtChars c a = false := by
  intro a
  induction a with
  | nil =>
    intro b c _ _
    cases c <;> rfl
  | cons x as ih =>
    intro b c h1 h2
    match b with
    | [] => simp [goStrLtChars] at h1
    | y :: bs =>
      match c with
      | [] => simp [goStrLtChars] at h2
      | z :: cs =>
        by_cases hyx : y < x
        · simp [goStrLtChars, hyx] at h1
        by_cases hzy : z < y
        · simp [goStrLtChars, hzy] at h2
        have hx_le_y : x ≤ y := not_lt.mp hyx
        have hy_le_z : y ≤ z := not_lt.mp hzy
        have hzx : ¬ z < x := not_lt.mpr (le_trans hx_le_y hy_le_z)
        simp only [goStrLtChars, if_neg hzx]
        by_cases hxz : x < z
        · simp [hxz]
        · have hxeqz : x = z := le_antisymm (le_trans hx_le_y hy_le_z) (not_lt.mp hxz)
          have hxeqy : x = y := le_antisymm hx_le_y (hxeqz ▸ hy_le_z)
          have hyeqz : y = z := hxeqy ▸ hxeqz
          have hnxy : ¬ x < y := by rw [← hxeqy]; exact lt_irrefl x
          have hnyz : ¬ y < z := by rw [← hyeqz]; exact lt_irrefl y
          simp only [goStrLtChars, if_neg hyx, if_neg hnxy] at h1
          simp only [goStrLtChars, if_neg hzy, if_neg hnyz] at h2
          simp only [if_neg hxz]
          exact ih bs cs h1 h2

lemma goStrLtChars_eq_of_both_neg :
    ∀ (a b : List Char), goStrLtChars a b = false → goStrLtChars b a = false → a = b := by
  intro a
  induction a with
  | nil =>
    intro b h1 _
    match b with
    | [] => rfl
    | _ :: _ => simp [goStrLtChars] at h1
  | cons x as ih =>
    intro b h1 h2
    match b with
    | [] => simp [goStrLtChars] at h2
    | y :: bs =>
      by_cases hxy : x < y
      · simp [goStrLtChars, hxy] at h1
      by_cases hyx : y < x
      · simp [goStrLtChars, hyx] at h2
      have hxeqy : x = y := le_antisymm (not_lt.mp hyx) (not_lt.mp hxy)
      simp only [goStrLtChars, if_neg hxy, if_neg hyx] at h1
      simp only [goStrLtChars, if_neg hyx, if_neg hxy] at h2
      rw [hxeqy, ih bs h1 h2]

lemma goStrLt_eq_of_both_neg (x y : String) (h1 : goStrLt x y = false)
    (h2 : goStrLt y x = false) : x = y := by
  have hd := goStrLtChars_eq_of_both_neg x.data y.data h1 h2
  cases x
  cases y
  simp only at hd
  rw [hd]

lemma sortedLess_neg_trans :
    ∀ (d : Nat) (a b c : List String), a.length = b.length → b.length = c.length →
      sortedLess d b a = false → sortedLess d c b = false → sortedLess d c a = false := by
  intro d
  induction d with
  | zero => intro a b c _ _ _ _; rfl
  | succ d ih =>
    intro a b c hab hbc h1 h2
    match a, b, c with
    | [], [], [] => rfl
    | [], [], _ :: _ => simp at hbc
    | [], _ :: _, _ => simp at hab
    | _ :: _, [], _ => simp at hab
    | _ :: _, _ :: _, [] => simp at hbc
    | x :: as, y :: bs, z :: cs =>
      simp only [List.length_cons] at hab hbc
      by_cases hyx : goStrLt y x = true
      · simp [sortedLess, hyx] at h1
      by_cases hzy : goStrLt z y = true
      · simp [sortedLess, hzy] at h2
      have hyx' : goStrLt y x = false := by
        cases hc : goStrLt y x
        · rfl
        · exact absurd hc hyx
      have hzy' : goStrLt z y = false := by
        cases hc : goStrLt z y
        · rfl
        · exact absurd hc hzy
      have hzx : goStrLt z x = false :=
        goStrLtChars_neg_trans x.data y.data z.data hyx' hzy'
      simp only [sortedLess, hzx, Bool.false_eq_true, if_false, ne_eq, ite_not]
      by_cases hzex : z = x
      · have hyex : y = x := goStrLt_eq_of_both_neg y x hyx' (hzex ▸ hzy')
        subst hzex
        subst hyex
        have h1' : sortedLess d bs as = false := by
          simpa [sortedLess, hyx'] using h1
        have h2' : sortedLess d cs bs = false := by
          simpa [sortedLess, hzy'] using h2
        rw [if_pos rfl]
        exact ih as bs cs (by omega) (by omega) h1' h2'
      · rw [if_neg hzex]

lemma sortedRun_tail (depth : Nat) (a b : List String) (rest : List (List String))
    (h : sortedRun depth (a :: b :: rest) = true) :
    sortedLess depth b a = false ∧ sortedRun depth (b :: rest) = true := by
  simpa [sortedRun, Bool.and_eq_true, Bool.not_eq_true'] using h

lemma sortedRun_pairwise (depth n : Nat) :
    ∀ (l : List (List String)), (∀ r ∈ l, r.length = n) → sortedRun depth l = true →
      l.Pairwise (fun a b => sortedLess depth b a = false) := by
  intro l
  induction l with
  | nil =>
    intro _ _
    exact List.Pairwise.nil
  | cons a l ih =>
    intro hlen hrun
    have htl : sortedRun depth l = true := by
      match l with
      | [] => rfl
      | b :: rest => exact (sortedRun_tail depth a b rest hrun).2
    have hpl := ih (fun r hr => hlen r (by simp [hr])) htl
    refine List.Pairwise.cons ?_ hpl
    match l with
    | [] =>
      intro r hr
      simp at hr
    | b :: rest =>
      have hab := (sortedRun_tail depth a b rest hrun).1
      intro r hr
      rcases List.mem_cons.mp hr with h1 | h2
      · rw [h1]
        exact hab
      · have hbr : sortedLess depth r b = false :=
          (List.pairwise_cons.mp hpl).1 r h2
        exact sortedLess_neg_trans depth a b r
          (by rw [hlen a (by simp), hlen b (by simp)])
          (by rw [hlen b (by simp), hlen r (by simp [h2])])
          hab hbr

/-- C3, counterexample: for two rows that tie on the first cell, the swapped
arrangement also satisfies the sort.Sort contract for depth 1, so the model
of SortByCols admits a result in which the tied rows do not retain their
original relative order (a stable sort would leave the filtered tie class
unchanged). -/
theorem sort_stability_counterexample :
    SortByColsRel 1 [["a", "2"], ["a", "1"]] [["a", "1"], ["a", "2"]] ∧
    List.filter (fun r => r.take 1 == ["a"]) [["a", "1"], ["a", "2"]] ≠
      List.filter (fun r => r.take 1 == ["a"]) [["a", "2"], ["a", "1"]] := by
  refine ⟨⟨by decide, by decide⟩, by decide⟩

/-- C3, amended: for rows of equal length, SortByCols(depth) replaces the
buffered rows by a permutation that is lexicographically ordered on the
first depth cells (no row is Less than any earlier row); retention of the
original relative order among rows tying on the prefix is not guaranteed,
since the code sorts with the unstable sort.Sort. -/
theorem sortByCols_sorted_perm (depth n : Nat) (lines result : List (List String))
    (hlen : ∀ r ∈ lines, r.length = n) (hrel : SortByColsRel depth lines result) :
    result.Perm lines ∧
      result.Pairwise (fun a b => sortedLess depth b a = false) := by
  refine ⟨hrel.1, ?_⟩
  have hlen' : ∀ r ∈ result, r.length = n := fun r hr => hlen r (hrel.1.mem_iff.mp hr)
  exact sortedRun_pairwise depth n result hlen' hrel.2

/-- Witness for the amended C3 theorem at a concrete pair of rows. -/
theorem sortByCols_sorted_perm_witness :
    ((∀ r ∈ [["b"], ["a"]], List.length r = 1) ∧
      SortByColsRel 1 [["b"], ["a"]] [["a"], ["b"]]) ∧
    ([["a"], ["b"]].Perm [["b"], ["a"]] ∧
      List.Pairwise (fun a b => sortedLess 1 b a = false) [["a"], ["b"]]) := by
  have hrel : SortByColsRel 1 [["b"], ["a"]] [["a"], ["b"]] := ⟨by decide, by decide⟩
  exact ⟨⟨by decide, hrel⟩,
    sortByCols_sorted_perm 1 1 [["b"], ["a"]] [["a"], ["b"]] (by decide) hrel⟩

end GtfsWriter

